import Mathlib

/-!
Verification of the manga-translation pipeline's two algorithmic subsystems:
box grouping/ordering (`src/main.py`) and text fit/layout/rendering
(`src/text_renderer.py`).

The Python code is shallowly embedded:
* boxes are records of four integers;
* Python's stable `sorted` with key `(b[1], b[0])` is modelled by
  `List.insertionSort` on the lexicographic key order (insertion sort is
  stable, so it agrees with any stable sort for this total preorder);
* the PIL text-measurement primitive `draw.textbbox((0,0), text, font=font)`
  is an external collaborator (font metrics); it is modelled by an abstract
  `TextMeasure` parameter mapping a font size and a string to a bounding box
  of integers, exactly as the code threads `draw`/`font` through every call;
* Python float thresholds are modelled by the exact rational they denote:
  `w > box_width * 0.975` becomes `1000 * w > 975 * box_width`,
  `h * 1.3 <= box_height` becomes `13 * h <= 10 * box_height`, and
  `int(box_width / char_width * 1.6)` becomes
  `Int.tdiv (16 * box_width) (10 * char_width)` (truncation toward zero,
  like Python's `int()`); float rounding error at exact boundary points is
  outside the model;
* `textwrap.TextWrapper(width, break_long_words=False, break_on_hyphens=False)`
  is modelled operation by operation from CPython's textwrap module
  (tab expansion, whitespace munging, chunk splitting on whitespace runs,
  greedy line filling with leading/trailing whitespace dropping and the
  long-word branch that puts an oversized chunk alone on a line);
* Python `set` iteration order is unspecified; the model iterates flagged
  words in first-occurrence order (the only place this could matter is when
  two distinct oversized words overlap textually in the input);
* recursion uses explicit fuel bounded by list length so that every
  definition reduces in the kernel.
-/

set_option maxRecDepth 20000

/-! ### Data model: boxes -/

/-- A detector bounding box `(x_min, y_min, x_max, y_max)`, integer pixel
coordinates, as produced in `src/main.py`. -/
structure Box where
  x_min : Int
  y_min : Int
  x_max : Int
  y_max : Int
deriving DecidableEq

/-- The sort key order used by `sorted(boxes, key=lambda b: (b[1], b[0]))`:
lexicographic on `(y_min, x_min)`. -/
def boxKeyLe (a b : Box) : Prop :=
  a.y_min < b.y_min ∨ (a.y_min = b.y_min ∧ a.x_min ≤ b.x_min)

instance : DecidableRel boxKeyLe := fun a b => by unfold boxKeyLe; infer_instance

/-- Python's stable `sorted` on the `(y_min, x_min)` key, modelled by the
stable insertion sort on the key order. -/
def sortBoxes (boxes : List Box) : List Box :=
  List.insertionSort boxKeyLe boxes

instance : IsTotal Box boxKeyLe := ⟨by intro a b; unfold boxKeyLe; omega⟩

instance : IsTrans Box boxKeyLe := ⟨by intro a b c; unfold boxKeyLe; omega⟩

/-- The merge test of `group_bounding_boxes`: box `b` joins the group of the
immediately preceding box `a` iff `0 <= b.y_min - a.y_max <= y_threshold`. -/
def nearBelow (t : Int) (a b : Box) : Prop :=
  0 ≤ b.y_min - a.y_max ∧ b.y_min - a.y_max ≤ t

instance : ∀ t a b, Decidable (nearBelow t a b) := fun t a b => by
  unfold nearBelow; infer_instance

/-- The sequential scan of `group_bounding_boxes` (`src/main.py` lines 54-78):
`prev` is the previous box in sort order, `cur` the open group (in order). -/
def groupChain (t : Int) : Box → List Box → List Box → List (List Box)
  | _, cur, [] => [cur]
  | prev, cur, c :: cs =>
    if nearBelow t prev c then
      groupChain t c (cur ++ [c]) cs
    else
      cur :: groupChain t c [c] cs

/-- `group_bounding_boxes(boxes, y_threshold)` from `src/main.py`:
sort by `(y_min, x_min)`, then scan, grouping vertically close boxes. -/
def group_bounding_boxes (boxes : List Box) (y_threshold : Int) : List (List Box) :=
  match sortBoxes boxes with
  | [] => []
  | b :: rest => groupChain y_threshold b [b] rest

/-- `get_group_bounding_box(group)` from `src/main.py`: componentwise
min/max reduction over the group.  Python's `min`/`max` raise on an empty
sequence; this is modelled by `none`. -/
def get_group_bounding_box : List Box → Option Box
  | [] => none
  | b :: bs =>
    some
      { x_min := bs.foldl (fun a c => min a c.x_min) b.x_min
        y_min := bs.foldl (fun a c => min a c.y_min) b.y_min
        x_max := bs.foldl (fun a c => max a c.x_max) b.x_max
        y_max := bs.foldl (fun a c => max a c.y_max) b.y_max }

/-! ### Punctuation normalization (`render_text`, `src/text_renderer.py` 133-138) -/

/-- `str.replace(a, b)` for single characters: replace every occurrence. -/
def replaceChar (a b : Char) (t : String) : String :=
  String.mk (t.data.map (fun c => if c = a then b else c))

/-- The whitespace codepoints matched by Python's `\s` / `str.split()` on
`str` (ASCII whitespace, the C1 separators, and Unicode spaces). -/
def pyWsCodes : List Nat :=
  [9, 10, 11, 12, 13, 28, 29, 30, 31, 32, 0x85, 0xa0, 0x1680,
   0x2000, 0x2001, 0x2002, 0x2003, 0x2004, 0x2005, 0x2006, 0x2007,
   0x2008, 0x2009, 0x200a, 0x2028, 0x2029, 0x202f, 0x205f, 0x3000]

/-- Python whitespace test for a character. -/
def pyIsSpace (c : Char) : Bool := pyWsCodes.contains c.toNat

/-- `re.sub(r'\.\s+\.', '..', t)`: a period, a (maximal) nonempty whitespace
run, then a period, collapse to two adjacent periods; scanning is left to
right and resumes after each replacement, as `re.sub` does.  Fuel is
bounded by the list length; every recursive call strictly shrinks the list. -/
def dotSpaceDotF : Nat → List Char → List Char
  | 0, l => l
  | _ + 1, [] => []
  | f + 1, c :: rest =>
    if c = '.' then
      match rest.takeWhile pyIsSpace, rest.dropWhile pyIsSpace with
      | _ :: _, '.' :: r3 => '.' :: '.' :: dotSpaceDotF f r3
      | _, _ => '.' :: dotSpaceDotF f rest
    else c :: dotSpaceDotF f rest

/-- `re.sub(r'\.{3,}', '...', t)`: collapse every maximal run of three or
more periods to exactly three. -/
def collapseDotsF : Nat → List Char → List Char
  | 0, l => l
  | _ + 1, [] => []
  | f + 1, c :: rest =>
    if c = '.' then
      let run := rest.takeWhile (fun d => d = '.')
      let r2 := rest.dropWhile (fun d => d = '.')
      if 2 ≤ run.length then '.' :: '.' :: '.' :: collapseDotsF f r2
      else c :: (run ++ collapseDotsF f r2)
    else c :: collapseDotsF f rest

/-- The unconditional punctuation normalization at the head of `render_text`:
full-width period and ellipsis to ASCII period, then `". ." -> ".."`, then
`"...+" -> "..."`. -/
def normalize_punct (t : String) : String :=
  let t1 := replaceChar '…' '.' (replaceChar '．' '.' t)
  let t2 := dotSpaceDotF (t1.data.length + 1) t1.data
  String.mk (collapseDotsF (t2.length + 1) t2)

/-! ### The text-measurement collaborator -/

/-- The four components returned by `draw.textbbox((0, 0), text, font)`. -/
structure MBBox where
  x0 : Int
  y0 : Int
  x1 : Int
  y1 : Int
deriving DecidableEq

/-- The external measurement primitive: for a font size and a string, the
rendered bounding box.  The code loads the font at `size` with `get_font`
and measures with the single `draw.textbbox` primitive; both are external
(PIL + font file), so they enter the model as this one parameter. -/
structure TextMeasure where
  textbbox : Nat → String → MBBox

/-- Rendered width of a string: `bbox[2] - bbox[0]`. -/
def wordWidth (m : TextMeasure) (size : Nat) (t : String) : Int :=
  (m.textbbox size t).x1 - (m.textbbox size t).x0

/-- Rendered height of a (possibly multi-line) string: `bbox[3] - bbox[1]`. -/
def textHeight (m : TextMeasure) (size : Nat) (t : String) : Int :=
  (m.textbbox size t).y1 - (m.textbbox size t).y0

/-- The proxy-character width estimate of `calculate_font_size`:
`draw.textbbox((0, 0), 'W', font=font)[2]` (the raw right edge). -/
def charWidthAt (m : TextMeasure) (size : Nat) : Int :=
  (m.textbbox size (String.mk ['W'])).x1

/-! ### `break_long_word` (`src/text_renderer.py` 23-46) -/

/-- The descending scan `for i in range(len(word) - 1, 0, -1)`: the first
(largest) `i` with `width(word[:i] + '-') <= max_width`, if any. -/
def brkScan (m : TextMeasure) (size : Nat) (word : String) (maxW : Int) : Nat → Option Nat
  | 0 => none
  | i + 1 =>
    if wordWidth m size (String.mk (word.data.take (i + 1) ++ ['-'])) ≤ maxW then
      some (i + 1)
    else
      brkScan m size word maxW i

/-- `break_long_word(word, max_width, draw, font)`: if the word fits, it is
returned unchanged; otherwise the longest strict front part whose
hyphenated form fits is split off, hyphen and line break inserted; if no
front part fits, the word is returned unchanged. -/
def break_long_word (m : TextMeasure) (size : Nat) (word : String) (maxW : Int) : String :=
  if wordWidth m size word ≤ maxW then word
  else
    match brkScan m size word maxW (word.data.length - 1) with
    | some i => String.mk (word.data.take i) ++ String.mk ['-', '\n'] ++ String.mk (word.data.drop i)
    | none => word

/-! ### Python string helpers: `split`, `replace` -/

/-- Split a character list into maximal runs of equal whitespace-class.
Fuel bounded by the list length. -/
def splitRunsF : Nat → List Char → List (List Char)
  | 0, _ => []
  | _ + 1, [] => []
  | f + 1, c :: rest =>
    let cls := pyIsSpace c
    (c :: rest.takeWhile (fun d => pyIsSpace d = cls)) ::
      splitRunsF f (rest.dropWhile (fun d => pyIsSpace d = cls))

/-- `text.split()`: the non-whitespace runs of the text. -/
def pySplit (t : String) : List String :=
  ((splitRunsF (t.data.length + 1) t.data).filter
      (fun c => c.all (fun d => pyIsSpace d = false))).map String.mk

/-- Does `pat` start `l`? -/
def leadMatch : List Char → List Char → Bool
  | [], _ => true
  | _ :: _, [] => false
  | a :: as, b :: bs => a = b && leadMatch as bs

/-- One pass of `str.replace`: replace every non-overlapping occurrence of
`pat` (scanning left to right, resuming after each replacement, which is
not itself rescanned).  Fuel bounded by the source length; `pat` is always
a nonempty word here. -/
def replaceAllF (pat rep : List Char) : Nat → List Char → List Char
  | 0, src => src
  | _ + 1, [] => []
  | f + 1, c :: cs =>
    if leadMatch pat (c :: cs) then
      rep ++ replaceAllF pat rep f ((c :: cs).drop pat.length)
    else
      c :: replaceAllF pat rep f cs

/-- `s.replace(pat, rep)` for a nonempty `pat` (an empty pattern never
reaches `str.replace` in this code: patterns come from `text.split()`). -/
def pyReplace (s pat rep : String) : String :=
  match pat.data with
  | [] => s
  | _ :: _ => String.mk (replaceAllF pat.data rep.data (s.data.length + 1) s.data)

/-! ### The `textwrap` collaborator
(CPython `textwrap.TextWrapper` with `break_long_words=False`,
`break_on_hyphens=False` and all other options at their defaults). -/

/-- `str.expandtabs(8)`: each tab advances to the next multiple of 8;
the column resets at a line or carriage return. -/
def expandTabsF : Nat → Nat → List Char → List Char
  | 0, _, l => l
  | _ + 1, _, [] => []
  | f + 1, col, c :: rest =>
    if c.toNat = 9 then
      List.replicate (8 - col % 8) ' ' ++ expandTabsF f (col + (8 - col % 8)) rest
    else if c.toNat = 10 ∨ c.toNat = 13 then
      c :: expandTabsF f 0 rest
    else
      c :: expandTabsF f (col + 1) rest

/-- `TextWrapper._munge_whitespace`: expand tabs, then translate each of
`\t \n \x0b \x0c \r` to a space (`replace_whitespace=True`). -/
def mungeWhitespace (l : List Char) : List Char :=
  (expandTabsF (l.length + 1) 0 l).map
    (fun c => if c.toNat = 9 ∨ c.toNat = 10 ∨ c.toNat = 11 ∨ c.toNat = 12 ∨ c.toNat = 13
              then ' ' else c)

/-- Is the chunk pure whitespace (`chunk.strip() == ''` for a nonempty run)? -/
def isWsChunk (c : List Char) : Bool := c.all pyIsSpace

/-- The greedy inner loop of `TextWrapper._wrap_chunks`: pop chunks onto the
current line while they fit; returns the remaining chunks and the line. -/
def fillLine (width : Nat) : List (List Char) → List (List Char) → Nat → List (List Char) × List (List Char)
  | [], cur, _ => ([], cur)
  | c :: cs, cur, len =>
    if len + c.length ≤ width then fillLine width cs (cur ++ [c]) (len + c.length)
    else (c :: cs, cur)

/-- The outer loop of `TextWrapper._wrap_chunks`: per line, drop a leading
whitespace chunk (except before the first emitted line), fill greedily,
place an oversized chunk alone on an empty line (`break_long_words=False`),
drop a trailing whitespace chunk, and emit the line if nonempty.
`noLineYet` tracks `not lines`.  Fuel bounded by the chunk count. -/
def wrapLinesF (width : Nat) : Nat → List (List Char) → Bool → List (List Char)
  | 0, _, _ => []
  | _ + 1, [], _ => []
  | f + 1, chunks, noLineYet =>
    let chunks1 :=
      match chunks with
      | c :: cs => if noLineYet = false ∧ isWsChunk c then cs else chunks
      | [] => chunks
    match chunks1 with
    | [] => []
    | _ :: _ =>
      let fl := fillLine width chunks1 [] 0
      let st :=
        match fl.1 with
        | [] => (([] : List (List Char)), fl.2)
        | c :: cs => if width < c.length ∧ fl.2 = [] then (cs, [c]) else (c :: cs, fl.2)
      let cur :=
        match st.2.getLast? with
        | some lc => if isWsChunk lc then st.2.dropLast else st.2
        | none => st.2
      match cur with
      | [] => wrapLinesF width f st.1 noLineYet
      | _ :: _ => cur.flatten :: wrapLinesF width f st.1 false

/-- `'\n'.join(TextWrapper(width, break_long_words=False,
break_on_hyphens=False).wrap(text))` as used by `calculate_font_size`. -/
def pyWrap (width : Nat) (t : String) : String :=
  let munged := mungeWhitespace t.data
  let chunks := splitRunsF (munged.length + 1) munged
  String.mk (List.intercalate ['\n'] (wrapLinesF width (chunks.length + 1) chunks true))

/-! ### `calculate_font_size` (`src/text_renderer.py` 48-114) -/

/-- Keep the first occurrence of each word: the model of iterating the
Python `set` of flagged words (iteration order is unspecified there). -/
def dedupFirst : List String → List String
  | [] => []
  | w :: ws => w :: (dedupFirst ws).filter (fun v => v ≠ w)

/-- The long-word pre-pass of `calculate_font_size` (lines 69-88): flag every
distinct whitespace-delimited word of the original text whose width exceeds
`box_width * 0.975` (exact-rational form: `1000 * w > 975 * box_width`),
then replace every occurrence of each flagged word by its broken form. -/
def prePass (m : TextMeasure) (size : Nat) (text : String) (box_width : Int) : String :=
  let flagged := (dedupFirst (pySplit text)).filter
    (fun w => 975 * box_width < 1000 * wordWidth m size w)
  flagged.foldl (fun acc w => pyReplace acc w (break_long_word m size w box_width)) text

/-- The per-size wrap of the loop body: pre-pass, then wrap at
`max(1, int(box_width / char_width * 1.6))` columns (exact-rational form of
the float product, truncated toward zero like `int()`). -/
def wrapAt (m : TextMeasure) (text : String) (box_width : Int) (size : Nat) : String :=
  let maxChars := (max 1 (Int.tdiv (16 * box_width) (10 * charWidthAt m size))).toNat
  pyWrap maxChars (prePass m size text box_width)

/-- The height test of the loop body: `text_height * 1.3 <= box_height`
(exact-rational form `13 * h <= 10 * box_height`). -/
def fitsAt (m : TextMeasure) (text : String) (box_width box_height : Int) (size : Nat) : Bool :=
  13 * textHeight m size (wrapAt m text box_width size) ≤ 10 * box_height

/-- The search loop `for size in range(min_size, max_size + 1)`: measure the
proxy character (abort on zero width), pre-process, wrap, and keep the size
while the wrapped height fits; stop at the first failure.  `best` carries
`(best_size, best_wrapped_text)`; fuel counts the remaining sizes. -/
def calcLoop (m : TextMeasure) (text : String) (box_width box_height : Int) :
    Nat → Nat → Nat × String → Nat × String
  | 0, _, best => best
  | f + 1, size, best =>
    if charWidthAt m size = 0 then best
    else
      let wrapped := wrapAt m text box_width size
      if 13 * textHeight m size wrapped ≤ 10 * box_height then
        calcLoop m text box_width box_height f (size + 1) (size, wrapped)
      else best

/-- `calculate_font_size(draw, text, box_width, box_height, max_size,
min_size)`: best size starts at `min_size` with the original text. -/
def calculate_font_size (m : TextMeasure) (text : String) (box_width box_height : Int)
    (max_size min_size : Nat) : Nat × String :=
  calcLoop m text box_width box_height (max_size + 1 - min_size) min_size (min_size, text)

/-! ### `render_text` (`src/text_renderer.py` 116-183) -/

/-- One `draw.text((x, y), text, font=font, fill=..., align='center')` call. -/
structure DrawCmd where
  x : Int
  y : Int
  txt : String
  fill : String
  size : Nat
deriving DecidableEq

/-- The image: PIL pixel state abstracted as the sequence of text draws
applied to it (`ImageDraw.Draw` itself does not modify pixels). -/
structure PImage where
  cmds : List DrawCmd
deriving DecidableEq

/-- The offsets `range(-2, 3)` of the outline loop. -/
def outlineOffsets : List Int := [-2, -1, 0, 1, 2]

/-- `render_text(image_pil, translated_text, bounding_box, padding)`:
normalize punctuation, compute the padded box, silently return the image
unchanged if the padded box is degenerate, else fit the text and draw the
24 white outline copies followed by the black main text, centered. -/
def render_text (m : TextMeasure) (img : PImage) (translated_text : String)
    (bounding_box : Box) (padding : Int) : PImage :=
  let t := normalize_punct translated_text
  let box_width := bounding_box.x_max - bounding_box.x_min - 2 * padding
  let box_height := bounding_box.y_max - bounding_box.y_min - 2 * padding
  if box_width ≤ 0 ∨ box_height ≤ 0 then img
  else
    let fit := calculate_font_size m t box_width box_height 50 10
    let tw := wordWidth m fit.1 fit.2
    let th := textHeight m fit.1 fit.2
    let text_x := Int.tdiv (bounding_box.x_min + bounding_box.x_max - tw) 2
    let text_y := Int.tdiv (bounding_box.y_min + bounding_box.y_max - th) 2
    let outline := (outlineOffsets.map (fun dx =>
      outlineOffsets.filterMap (fun dy =>
        if dx ≠ 0 ∨ dy ≠ 0 then
          some (DrawCmd.mk (text_x + dx) (text_y + dy) fit.2 (String.mk ['w','h','i','t','e']) fit.1)
        else none))).flatten
    PImage.mk (img.cmds ++ outline ++
      [DrawCmd.mk text_x text_y fit.2 (String.mk ['b','l','a','c','k']) fit.1])

/-! ### Concrete measurement models for examples and counterexamples -/

/-- A simple proportional font model: every glyph is `size` pixels wide and
every line `size` pixels tall; the bounding box of an `n`-line block is
`size * n` tall.  Used to evaluate the spec's concrete examples. -/
def linM : TextMeasure :=
  TextMeasure.mk (fun size t =>
    MBBox.mk 0 0 ((size : Int) * t.data.length)
      ((size : Int) * ((t.data.count '\n' : Int) + 1)))

/-- A degenerate constant font model: every string measures 1 by 1.
Its proxy width is never zero and every candidate size fits. -/
def constM : TextMeasure := TextMeasure.mk (fun _ _ => MBBox.mk 0 0 1 1)

/-- A font model whose proxy character measures zero at every size. -/
def zeroM : TextMeasure := TextMeasure.mk (fun _ _ => MBBox.mk 0 0 0 0)

/-- A font model that behaves proportionally at size 10 but reports a
zero-width proxy at size 11: the search sees one fitting size and then the
zero-width abort. -/
def zeroAt11M : TextMeasure :=
  TextMeasure.mk (fun size t =>
    MBBox.mk 0 0 (if size = 11 then 0 else (size : Int) * t.data.length)
      ((size : Int) * ((t.data.count '\n' : Int) + 1)))

/-- A font model in which only the ten-letter word is oversized, while any
longer word containing it stays narrow: isolates the substring-replacement
behaviour of the long-word pre-pass. -/
def subWordM : TextMeasure :=
  TextMeasure.mk (fun size t =>
    MBBox.mk 0 0
      (if t = String.mk ['a','a','a','a','a','a','a','a','a','a'] then 1000
       else (t.data.length : Int))
      ((size : Int) * ((t.data.count '\n' : Int) + 1)))

/-- Scanner for a run of four consecutive ASCII periods. -/
def hasFourDotsF : List Char → Bool
  | '.' :: '.' :: '.' :: '.' :: _ => true
  | _ :: rest => hasFourDotsF rest
  | [] => false

/-- Scanner for a hyphen immediately followed by a line break. -/
def containsHyphenBreak : Nat → List Char → Bool
  | 0, _ => false
  | _ + 1, [] => false
  | f + 1, c :: cs => leadMatch ['-', '\n'] (c :: cs) || containsHyphenBreak f cs

/-- The three-box end-to-end grouping example from the spec. -/
def exampleBoxes : List Box :=
  [Box.mk 10 10 50 30, Box.mk 60 35 100 55, Box.mk 200 300 250 320]

/-! ### Helper lemmas: grouping -/

theorem groupChain_flatten (t : Int) :
    ∀ (cs : List Box) (prev : Box) (cur : List Box),
      (groupChain t prev cur cs).flatten = cur ++ cs := by
  intro cs
  induction cs with
  | nil => intro prev cur; simp [groupChain]
  | cons c cs ih =>
    intro prev cur
    by_cases h : nearBelow t prev c
    · simp [groupChain, h, ih]
    · simp [groupChain, h, ih]

theorem groupChain_ne_nil (t : Int) :
    ∀ (cs : List Box) (prev : Box) (cur : List Box), cur ≠ [] →
      ∀ g ∈ groupChain t prev cur cs, g ≠ [] := by
  intro cs
  induction cs with
  | nil => intro prev cur hcur g hg; simp [groupChain] at hg; simpa [hg] using hcur
  | cons c cs ih =>
    intro prev cur hcur g hg
    by_cases h : nearBelow t prev c
    · rw [groupChain, if_pos h] at hg
      exact ih c (cur ++ [c]) (by simp) g hg
    · rw [groupChain, if_neg h] at hg
      rcases List.mem_cons.mp hg with h1 | h1
      · simpa [h1] using hcur
      · exact ih c [c] (by simp) g h1

theorem groupChain_chain (t : Int) :
    ∀ (cs : List Box) (prev : Box) (cur : List Box),
      cur.getLast? = some prev → List.Chain' (nearBelow t) cur →
      ∀ g ∈ groupChain t prev cur cs, List.Chain' (nearBelow t) g := by
  intro cs
  induction cs with
  | nil => intro prev cur _ hch g hg; simp [groupChain] at hg; simpa [hg] using hch
  | cons c cs ih =>
    intro prev cur hlast hch g hg
    by_cases h : nearBelow t prev c
    · rw [groupChain, if_pos h] at hg
      refine ih c (cur ++ [c]) (by simp) ?_ g hg
      rw [List.chain'_append]
      refine ⟨hch, List.chain'_singleton c, ?_⟩
      intro x hx y hy
      rw [hlast] at hx
      simp at hx hy
      subst hx
      subst hy
      exact h
    · rw [groupChain, if_neg h] at hg
      rcases List.mem_cons.mp hg with h1 | h1
      · simpa [h1] using hch
      · exact ih c [c] (by simp) (List.chain'_singleton c) g h1

theorem groupChain_head (t : Int) :
    ∀ (cs : List Box) (prev : Box) (cur : List Box),
      ∃ d, (groupChain t prev cur cs).head? = some (cur ++ d) := by
  intro cs
  induction cs with
  | nil => intro prev cur; exact ⟨[], by simp [groupChain]⟩
  | cons c cs ih =>
    intro prev cur
    by_cases h : nearBelow t prev c
    · rw [groupChain, if_pos h]
      obtain ⟨d, hd⟩ := ih c (cur ++ [c])
      exact ⟨[c] ++ d, by simpa using hd⟩
    · rw [groupChain, if_neg h]
      exact ⟨[], by simp⟩

theorem groupChain_boundary (t : Int) :
    ∀ (cs : List Box) (prev : Box) (cur : List Box),
      cur.getLast? = some prev →
      List.Chain' (fun g1 g2 => ∀ a ∈ g1.getLast?, ∀ b ∈ g2.head?, ¬ nearBelow t a b)
        (groupChain t prev cur cs) := by
  intro cs
  induction cs with
  | nil => intro prev cur _; simp [groupChain]
  | cons c cs ih =>
    intro prev cur hlast
    by_cases h : nearBelow t prev c
    · rw [groupChain, if_pos h]
      exact ih c (cur ++ [c]) (by simp)
    · rw [groupChain, if_neg h]
      rw [List.chain'_cons']
      refine ⟨?_, ih c [c] rfl⟩
      intro g2 hg2 a ha b hb
      obtain ⟨d, hd⟩ := groupChain_head t cs c [c]
      rw [hd] at hg2
      cases hg2
      rw [hlast] at ha
      cases ha
      simp at hb
      subst hb
      exact h

/-! ### Helper lemmas: min/max folds -/

theorem foldlMin_le_init : ∀ (l : List Int) (a : Int), l.foldl min a ≤ a := by
  intro l
  induction l with
  | nil => simp
  | cons x xs ih => intro a; exact le_trans (ih (min a x)) (min_le_left a x)

theorem foldlMin_le_mem : ∀ (l : List Int) (a : Int), ∀ x ∈ l, l.foldl min a ≤ x := by
  intro l
  induction l with
  | nil => simp
  | cons y ys ih =>
    intro a x hx
    rcases List.mem_cons.mp hx with h | h
    · subst h
      exact le_trans (foldlMin_le_init ys (min a x)) (min_le_right a x)
    · exact ih (min a y) x h

theorem foldlMin_attained : ∀ (l : List Int) (a : Int), l.foldl min a = a ∨ l.foldl min a ∈ l := by
  intro l
  induction l with
  | nil => simp
  | cons y ys ih =>
    intro a
    rcases ih (min a y) with h | h
    · rcases min_cases a y with ⟨he, _⟩ | ⟨he, _⟩
      · left; rw [List.foldl_cons, h, he]
      · right; rw [List.foldl_cons, h, he]; exact List.mem_cons_self y ys
    · right; rw [List.foldl_cons]; exact List.mem_cons_of_mem y h

theorem foldlMax_init_le : ∀ (l : List Int) (a : Int), a ≤ l.foldl max a := by
  intro l
  induction l with
  | nil => simp
  | cons x xs ih => intro a; exact le_trans (le_max_left a x) (ih (max a x))

theorem foldlMax_mem_le : ∀ (l : List Int) (a : Int), ∀ x ∈ l, x ≤ l.foldl max a := by
  intro l
  induction l with
  | nil => simp
  | cons y ys ih =>
    intro a x hx
    rcases List.mem_cons.mp hx with h | h
    · subst h
      exact le_trans (le_max_right a x) (foldlMax_init_le ys (max a x))
    · exact ih (max a y) x h

theorem foldlMax_attained : ∀ (l : List Int) (a : Int), l.foldl max a = a ∨ l.foldl max a ∈ l := by
  intro l
  induction l with
  | nil => simp
  | cons y ys ih =>
    intro a
    rcases ih (max a y) with h | h
    · rcases max_cases a y with ⟨he, _⟩ | ⟨he, _⟩
      · left; rw [List.foldl_cons, h, he]
      · right; rw [List.foldl_cons, h, he]; exact List.mem_cons_self y ys
    · right; rw [List.foldl_cons]; exact List.mem_cons_of_mem y h

theorem foldlMinProj_le_init (f : Box → Int) (bs : List Box) (b : Box) :
    bs.foldl (fun a c => min a (f c)) (f b) ≤ f b := by
  rw [← List.foldl_map]
  exact foldlMin_le_init _ _

theorem foldlMinProj_le_mem (f : Box → Int) (bs : List Box) (b c : Box) (h : c ∈ bs) :
    bs.foldl (fun a d => min a (f d)) (f b) ≤ f c := by
  rw [← List.foldl_map]
  exact foldlMin_le_mem _ _ _ (List.mem_map_of_mem f h)

theorem foldlMinProj_attained (f : Box → Int) (bs : List Box) (b : Box) :
    ∃ c ∈ b :: bs, bs.foldl (fun a d => min a (f d)) (f b) = f c := by
  rw [← List.foldl_map]
  rcases foldlMin_attained (bs.map f) (f b) with h | h
  · exact ⟨b, List.mem_cons_self b bs, h⟩
  · obtain ⟨c, hc, hceq⟩ := List.mem_map.mp h
    exact ⟨c, List.mem_cons_of_mem b hc, hceq.symm⟩

theorem foldlMaxProj_init_le (f : Box → Int) (bs : List Box) (b : Box) :
    f b ≤ bs.foldl (fun a c => max a (f c)) (f b) := by
  rw [← List.foldl_map]
  exact foldlMax_init_le _ _

theorem foldlMaxProj_mem_le (f : Box → Int) (bs : List Box) (b c : Box) (h : c ∈ bs) :
    f c ≤ bs.foldl (fun a d => max a (f d)) (f b) := by
  rw [← List.foldl_map]
  exact foldlMax_mem_le _ _ _ (List.mem_map_of_mem f h)

theorem foldlMaxProj_attained (f : Box → Int) (bs : List Box) (b : Box) :
    ∃ c ∈ b :: bs, bs.foldl (fun a d => max a (f d)) (f b) = f c := by
  rw [← List.foldl_map]
  rcases foldlMax_attained (bs.map f) (f b) with h | h
  · exact ⟨b, List.mem_cons_self b bs, h⟩
  · obtain ⟨c, hc, hceq⟩ := List.mem_map.mp h
    exact ⟨c, List.mem_cons_of_mem b hc, hceq.symm⟩

/-! ### Claims C2, C3, C7: box grouping -/

/-- C2: `group()` sorts by `(y_min, x_min)` and then appends a box to the
open group exactly when `0 <= y_min - previous.y_max <= y_threshold`
against the immediately preceding box in sort order, closing the group
otherwise: concatenating the groups gives exactly the sorted list, within
each group every adjacent pair satisfies the merge test, across each group
boundary the test fails, and the spec's three-box example yields the two
groups `[[b1, b2], [b3]]` of sizes 2 and 1. -/
theorem c2_group_scan :
    (∀ (boxes : List Box) (t : Int),
      List.Sorted boxKeyLe (sortBoxes boxes) ∧
      (group_bounding_boxes boxes t).flatten = sortBoxes boxes ∧
      (∀ g ∈ group_bounding_boxes boxes t, g ≠ [] ∧ List.Chain' (nearBelow t) g) ∧
      List.Chain' (fun g1 g2 => ∀ a ∈ g1.getLast?, ∀ b ∈ g2.head?, ¬ nearBelow t a b)
        (group_bounding_boxes boxes t)) ∧
    group_bounding_boxes exampleBoxes 50 =
      [[Box.mk 10 10 50 30, Box.mk 60 35 100 55], [Box.mk 200 300 250 320]] ∧
    (group_bounding_boxes exampleBoxes 50).map List.length = [2, 1] := by
  refine ⟨?_, by decide, by decide⟩
  intro boxes t
  refine ⟨List.sorted_insertionSort boxKeyLe boxes, ?_⟩
  unfold group_bounding_boxes
  cases h : sortBoxes boxes with
  | nil => simp
  | cons b rest =>
    refine ⟨by rw [groupChain_flatten]; rfl, ?_, ?_⟩
    · intro g hg
      exact ⟨groupChain_ne_nil t rest b [b] (by simp) g hg,
        groupChain_chain t rest b [b] rfl (List.chain'_singleton b) g hg⟩
    · exact groupChain_boundary t rest b [b] rfl

/-- C3: `group()` partitions its input exactly — concatenating the output
groups in order reproduces the `(y_min, x_min)`-sorted order of the input,
and that concatenation is a permutation of the input (every box appears
exactly once, no duplication, no loss). -/
theorem c3_group_partition (boxes : List Box) (t : Int) :
    (group_bounding_boxes boxes t).flatten = sortBoxes boxes ∧
    List.Perm (group_bounding_boxes boxes t).flatten boxes := by
  have hf : (group_bounding_boxes boxes t).flatten = sortBoxes boxes := by
    unfold group_bounding_boxes
    cases h : sortBoxes boxes with
    | nil => simp
    | cons b rest => rw [groupChain_flatten]; rfl
  exact ⟨hf, by rw [hf]; exact List.perm_insertionSort boxKeyLe boxes⟩

/-- C7: `group_bounding_box` of a non-empty group is the componentwise
min/max of the members — it lower-bounds every member's `x_min`/`y_min`,
upper-bounds every `x_max`/`y_max`, each bound is attained by some member —
and the empty group is exactly the failure case. -/
theorem c7_group_bbox (group : List Box) :
    (get_group_bounding_box group = none ↔ group = []) ∧
    (∀ r, get_group_bounding_box group = some r →
      (∀ b ∈ group,
        r.x_min ≤ b.x_min ∧ r.y_min ≤ b.y_min ∧ b.x_max ≤ r.x_max ∧ b.y_max ≤ r.y_max) ∧
      (∃ b ∈ group, r.x_min = b.x_min) ∧ (∃ b ∈ group, r.y_min = b.y_min) ∧
      (∃ b ∈ group, r.x_max = b.x_max) ∧ (∃ b ∈ group, r.y_max = b.y_max)) := by
  cases group with
  | nil => exact ⟨by simp [get_group_bounding_box], by simp [get_group_bounding_box]⟩
  | cons b bs =>
    refine ⟨by simp [get_group_bounding_box], ?_⟩
    intro r hr
    rw [get_group_bounding_box] at hr
    injection hr with hr
    subst hr
    constructor
    · intro c hc
      rcases List.mem_cons.mp hc with h | h
      · subst h
        exact ⟨foldlMinProj_le_init Box.x_min bs c, foldlMinProj_le_init Box.y_min bs c,
          foldlMaxProj_init_le Box.x_max bs c, foldlMaxProj_init_le Box.y_max bs c⟩
      · exact ⟨foldlMinProj_le_mem Box.x_min bs b c h, foldlMinProj_le_mem Box.y_min bs b c h,
          foldlMaxProj_mem_le Box.x_max bs b c h, foldlMaxProj_mem_le Box.y_max bs b c h⟩
    · exact ⟨foldlMinProj_attained Box.x_min bs b, foldlMinProj_attained Box.y_min bs b,
        foldlMaxProj_attained Box.x_max bs b, foldlMaxProj_attained Box.y_max bs b⟩

/-- Witness for C7 at a concrete two-box group. -/
theorem c7_witness :
    get_group_bounding_box [Box.mk 0 0 2 2, Box.mk 1 (-1) 3 5] = some (Box.mk 0 (-1) 3 5) ∧
    (Box.mk 0 (-1) 3 5).x_min ≤ (Box.mk 1 (-1) 3 5).x_min ∧
    (Box.mk 1 (-1) 3 5).x_max ≤ (Box.mk 0 (-1) 3 5).x_max := by
  have h := (c7_group_bbox [Box.mk 0 0 2 2, Box.mk 1 (-1) 3 5]).2 (Box.mk 0 (-1) 3 5) (by decide)
  exact ⟨by decide, (h.1 (Box.mk 1 (-1) 3 5) (by simp)).1, (h.1 (Box.mk 1 (-1) 3 5) (by simp)).2.2.1⟩

/-! ### Helper lemmas: punctuation normalization -/

theorem dotSpaceDotF_mem :
    ∀ (f : Nat) (l : List Char) (c : Char), c ∈ dotSpaceDotF f l → c ∈ l ∨ c = '.' := by
  intro f
  induction f with
  | zero => intro l c h; exact Or.inl h
  | succ f ih =>
    intro l c h
    match l with
    | [] => simp [dotSpaceDotF] at h
    | d :: rest =>
      rw [dotSpaceDotF] at h
      by_cases hd : d = '.'
      · rw [if_pos hd] at h
        split at h
        · next r3 heqt heqd =>
          rcases List.mem_cons.mp h with h1 | h1
          · exact Or.inr h1
          rcases List.mem_cons.mp h1 with h2 | h2
          · exact Or.inr h2
          rcases ih r3 c h2 with h3 | h3
          · refine Or.inl (List.mem_cons_of_mem d ?_)
            exact (List.dropWhile_sublist pyIsSpace).subset (heqd ▸ List.mem_cons_of_mem '.' h3)
          · exact Or.inr h3
        · next =>
          rcases List.mem_cons.mp h with h1 | h1
          · exact Or.inr h1
          rcases ih rest c h1 with h2 | h2
          · exact Or.inl (List.mem_cons_of_mem d h2)
          · exact Or.inr h2
      · rw [if_neg hd] at h
        rcases List.mem_cons.mp h with h1 | h1
        · exact Or.inl (h1 ▸ List.mem_cons_self d rest)
        rcases ih rest c h1 with h2 | h2
        · exact Or.inl (List.mem_cons_of_mem d h2)
        · exact Or.inr h2

theorem collapseDotsF_mem :
    ∀ (f : Nat) (l : List Char) (c : Char), c ∈ collapseDotsF f l → c ∈ l ∨ c = '.' := by
  intro f
  induction f with
  | zero => intro l c h; exact Or.inl h
  | succ f ih =>
    intro l c h
    match l with
    | [] => simp [collapseDotsF] at h
    | d :: rest =>
      rw [collapseDotsF] at h
      by_cases hd : d = '.'
      · rw [if_pos hd] at h
        simp only [] at h
        split at h
        · rcases List.mem_cons.mp h with h1 | h1
          · exact Or.inr h1
          rcases List.mem_cons.mp h1 with h2 | h2
          · exact Or.inr h2
          rcases List.mem_cons.mp h2 with h3 | h3
          · exact Or.inr h3
          rcases ih _ c h3 with h4 | h4
          · exact Or.inl (List.mem_cons_of_mem d
              ((List.dropWhile_sublist (fun e => e = '.')).subset h4))
          · exact Or.inr h4
        · rcases List.mem_cons.mp h with h1 | h1
          · exact Or.inl (h1 ▸ List.mem_cons_self d rest)
          rcases List.mem_append.mp h1 with h2 | h2
          · exact Or.inl (List.mem_cons_of_mem d
              ((List.takeWhile_sublist (fun e => e = '.')).subset h2))
          rcases ih _ c h2 with h3 | h3
          · exact Or.inl (List.mem_cons_of_mem d
              ((List.dropWhile_sublist (fun e => e = '.')).subset h3))
          · exact Or.inr h3
      · rw [if_neg hd] at h
        rcases List.mem_cons.mp h with h1 | h1
        · exact Or.inl (h1 ▸ List.mem_cons_self d rest)
        rcases ih rest c h1 with h2 | h2
        · exact Or.inl (List.mem_cons_of_mem d h2)
        · exact Or.inr h2

theorem replaceChar_mem (a b c : Char) (t : String) (h : c ∈ (replaceChar a b t).data) :
    c = b ∨ (c ∈ t.data ∧ c ≠ a) := by
  unfold replaceChar at h
  simp only [List.mem_map] at h
  obtain ⟨x, hx, heq⟩ := h
  by_cases hxa : x = a
  · rw [if_pos hxa] at heq
    exact Or.inl heq.symm
  · rw [if_neg hxa] at heq
    subst heq
    exact Or.inr ⟨hx, hxa⟩

/-! ### Claims C8, C9: renderer normalization and no-op -/

/-- C8: the renderer's punctuation normalization replaces every full-width
period and ellipsis glyph with an ASCII period (no such glyph survives in
any normalized text), and on the spec's example input the result is exactly
the two kana followed by three ASCII periods, with no run of four periods. -/
theorem c8_normalize :
    (∀ t : String,
      '．' ∉ (normalize_punct t).data ∧ '…' ∉ (normalize_punct t).data) ∧
    normalize_punct (String.mk ['よ', 'し', '．', '．', '．']) =
      String.mk ['よ', 'し', '.', '.', '.'] ∧
    hasFourDotsF (normalize_punct (String.mk ['よ', 'し', '．', '．', '．'])).data = false := by
  refine ⟨?_, by decide, by decide⟩
  intro t
  have key : ∀ c : Char, c ∈ (normalize_punct t).data →
      c ∈ (replaceChar '…' '.' (replaceChar '．' '.' t)).data ∨ c = '.' := by
    intro c hc
    unfold normalize_punct at hc
    rcases collapseDotsF_mem _ _ _ hc with h | h
    · rcases dotSpaceDotF_mem _ _ _ h with h2 | h2
      · exact Or.inl h2
      · exact Or.inr h2
    · exact Or.inr h
  constructor
  · intro h
    rcases key _ h with h1 | h1
    · rcases replaceChar_mem '…' '.' _ _ h1 with h2 | ⟨h2, _⟩
      · exact absurd h2 (by decide)
      · rcases replaceChar_mem '．' '.' _ _ h2 with h3 | ⟨_, h3⟩
        · exact absurd h3 (by decide)
        · exact h3 rfl
    · exact absurd h1 (by decide)
  · intro h
    rcases key _ h with h1 | h1
    · rcases replaceChar_mem '…' '.' _ _ h1 with h2 | ⟨_, h2⟩
      · exact absurd h2 (by decide)
      · exact h2 rfl
    · exact absurd h1 (by decide)

/-- C9: when the padded box is degenerate in either axis, `render_text`
returns the image unchanged: no pixels are drawn and no error is raised. -/
theorem c9_render_noop (m : TextMeasure) (img : PImage) (text : String) (bb : Box)
    (padding : Int)
    (h : bb.x_max - bb.x_min - 2 * padding ≤ 0 ∨ bb.y_max - bb.y_min - 2 * padding ≤ 0) :
    render_text m img text bb padding = img := by
  unfold render_text
  rw [if_pos h]

/-- Witness for C9: a box narrower than twice the padding is a no-op. -/
theorem c9_witness :
    render_text linM (PImage.mk []) (String.mk ['H', 'i']) (Box.mk 0 0 4 100) 5 =
      PImage.mk [] :=
  c9_render_noop linM (PImage.mk []) (String.mk ['H', 'i']) (Box.mk 0 0 4 100) 5
    (Or.inl (by decide))

/-! ### Helper lemmas: the font-size search loop -/

theorem calcLoop_fst_ge (m : TextMeasure) (text : String) (W H : Int) :
    ∀ (f s : Nat) (best : Nat × String), best.1 ≤ s →
      best.1 ≤ (calcLoop m text W H f s best).1 := by
  intro f
  induction f with
  | zero => intro s best _; exact le_refl _
  | succ f ih =>
    intro s best hbs
    rw [calcLoop]
    by_cases hcw : charWidthAt m s = 0
    · rw [if_pos hcw]
    · rw [if_neg hcw]
      by_cases hfit : 13 * textHeight m s (wrapAt m text W s) ≤ 10 * H
      · rw [if_pos hfit]
        exact le_trans hbs (ih (s + 1) (s, wrapAt m text W s) (Nat.le_succ s))
      · rw [if_neg hfit]

theorem calcLoop_mono (m : TextMeasure) (text : String) (W : Int) (H1 H2 : Int) (hH : H1 ≤ H2) :
    ∀ (f s : Nat) (best : Nat × String), best.1 ≤ s →
      (calcLoop m text W H1 f s best).1 ≤ (calcLoop m text W H2 f s best).1 := by
  intro f
  induction f with
  | zero => intro s best _; exact le_refl _
  | succ f ih =>
    intro s best hbs
    rw [calcLoop, calcLoop]
    by_cases hcw : charWidthAt m s = 0
    · rw [if_pos hcw, if_pos hcw]
    · rw [if_neg hcw, if_neg hcw]
      by_cases h1 : 13 * textHeight m s (wrapAt m text W s) ≤ 10 * H1
      · have h2 : 13 * textHeight m s (wrapAt m text W s) ≤ 10 * H2 :=
          le_trans h1 (by linarith)
        rw [if_pos h1, if_pos h2]
        exact ih (s + 1) (s, wrapAt m text W s) (Nat.le_succ s)
      · rw [if_neg h1]
        by_cases h2 : 13 * textHeight m s (wrapAt m text W s) ≤ 10 * H2
        · rw [if_pos h2]
          exact le_trans hbs
            (calcLoop_fst_ge m text W H2 f (s + 1) (s, wrapAt m text W s) (Nat.le_succ s))
        · rw [if_neg h2]

theorem calcLoop_streak (m : TextMeasure) (text : String) (W H : Int) :
    ∀ (f s : Nat) (best : Nat × String), 0 < f →
      (∀ j, j < f → charWidthAt m (s + j) ≠ 0) →
      fitsAt m text W H s = true →
      s ≤ (calcLoop m text W H f s best).1 ∧
      (calcLoop m text W H f s best).1 < s + f ∧
      fitsAt m text W H (calcLoop m text W H f s best).1 = true ∧
      (calcLoop m text W H f s best).2 = wrapAt m text W (calcLoop m text W H f s best).1 ∧
      ((calcLoop m text W H f s best).1 + 1 < s + f →
        fitsAt m text W H ((calcLoop m text W H f s best).1 + 1) = false) := by
  intro f
  induction f with
  | zero => intro s best h0; exact absurd h0 (by omega)
  | succ f ih =>
    intro s best _ hcw hfit
    have hcs : charWidthAt m s ≠ 0 := by
      have := hcw 0 (by omega)
      simpa using this
    have hfit' : 13 * textHeight m s (wrapAt m text W s) ≤ 10 * H := by
      have := of_decide_eq_true hfit
      exact this
    rw [calcLoop, if_neg hcs, if_pos hfit']
    cases f with
    | zero =>
      rw [calcLoop]
      refine ⟨le_refl s, by omega, hfit, rfl, by omega⟩
    | succ g =>
      by_cases hnext : fitsAt m text W H (s + 1) = true
      · have hcw' : ∀ j, j < g + 1 → charWidthAt m (s + 1 + j) ≠ 0 := by
          intro j hj
          have := hcw (j + 1) (by omega)
          simpa [Nat.add_assoc, Nat.add_comm 1 j] using this
        obtain ⟨ha, hb, hc, hd, he⟩ :=
          ih (s + 1) (s, wrapAt m text W s) (by omega) hcw' hnext
        exact ⟨by omega, by omega, hc, hd, fun hlt => he (by omega)⟩
      · have hcs1 : charWidthAt m (s + 1) ≠ 0 := by
          have := hcw 1 (by omega)
          simpa using this
        have hnf : ¬ 13 * textHeight m (s + 1) (wrapAt m text W (s + 1)) ≤ 10 * H := by
          intro hle
          exact hnext (decide_eq_true hle)
        rw [calcLoop, if_neg hcs1, if_neg hnf]
        refine ⟨le_refl s, by omega, hfit, rfl, ?_⟩
        intro _
        simpa [fitsAt] using hnf

theorem calcLoop_cut (m : TextMeasure) (text : String) (W H : Int) (s0 : Nat)
    (hz : charWidthAt m s0 = 0) :
    ∀ (f2 f1 s : Nat) (best : Nat × String), s + f2 = s0 → f2 ≤ f1 →
      calcLoop m text W H f1 s best = calcLoop m text W H f2 s best := by
  intro f2
  induction f2 with
  | zero =>
    intro f1 s best hs _
    have hseq : charWidthAt m s = 0 := by
      have heq : s = s0 := by omega
      rw [heq]
      exact hz
    cases f1 with
    | zero => rfl
    | succ g =>
      simp only [calcLoop]
      rw [if_pos hseq]
  | succ g ih =>
    intro f1 s best hs hle
    cases f1 with
    | zero => exact absurd hle (by omega)
    | succ g1 =>
      rw [calcLoop, calcLoop]
      by_cases hcw : charWidthAt m s = 0
      · rw [if_pos hcw, if_pos hcw]
      · rw [if_neg hcw, if_neg hcw]
        by_cases hfit : 13 * textHeight m s (wrapAt m text W s) ≤ 10 * H
        · rw [if_pos hfit, if_pos hfit]
          exact ih g1 (s + 1) (s, wrapAt m text W s) (by omega) (by omega)
        · rw [if_neg hfit, if_neg hfit]

/-! ### Claims C1, C5, C6: the font-size search -/

/-- C1 (amended): when the proxy character measures nonzero throughout the
range and failing the height margin is upward-closed in the size (the
spec's monotonicity assumption), the returned `font_size` is the largest
size in `[min_size, max_size]` whose wrapped text satisfies
`height * 1.3 <= box_height`, returned together with that size's wrapped
text; if no size satisfies the margin the function returns `min_size` with
the ORIGINAL UNWRAPPED text (not a wrapped one); a trivially short text in
a large box returns `max_size` ("Hi" in 400 by 400 at sizes 10..50 gives
50). -/
theorem c1_font_search (m : TextMeasure) (text : String) (W H : Int) (minS maxS : Nat)
    (hrange : minS ≤ maxS)
    (hcw : ∀ s, minS ≤ s → s ≤ maxS → charWidthAt m s ≠ 0)
    (hmono : ∀ s t, minS ≤ s → s ≤ t → t ≤ maxS →
      fitsAt m text W H t = true → fitsAt m text W H s = true) :
    ((∃ s0, minS ≤ s0 ∧ s0 ≤ maxS ∧ fitsAt m text W H s0 = true) →
      minS ≤ (calculate_font_size m text W H maxS minS).1 ∧
      (calculate_font_size m text W H maxS minS).1 ≤ maxS ∧
      fitsAt m text W H (calculate_font_size m text W H maxS minS).1 = true ∧
      (calculate_font_size m text W H maxS minS).2 =
        wrapAt m text W (calculate_font_size m text W H maxS minS).1 ∧
      (∀ s0, minS ≤ s0 → s0 ≤ maxS → fitsAt m text W H s0 = true →
        s0 ≤ (calculate_font_size m text W H maxS minS).1)) ∧
    ((∀ s0, minS ≤ s0 → s0 ≤ maxS → fitsAt m text W H s0 = false) →
      calculate_font_size m text W H maxS minS = (minS, text)) ∧
    calculate_font_size linM ("Hi") 400 400 50 10 = (50, ("Hi")) := by
  refine ⟨?_, ?_, by decide⟩
  · intro hex
    have hminS : fitsAt m text W H minS = true := by
      obtain ⟨s0, ha, hb, hc⟩ := hex
      exact hmono minS s0 (le_refl minS) ha hb hc
    have hcw' : ∀ j, j < maxS + 1 - minS → charWidthAt m (minS + j) ≠ 0 := by
      intro j hj
      exact hcw (minS + j) (by omega) (by omega)
    obtain ⟨ha, hb, hc, hd, he⟩ :=
      calcLoop_streak m text W H (maxS + 1 - minS) minS (minS, text) (by omega) hcw' hminS
    unfold calculate_font_size
    refine ⟨ha, by omega, hc, hd, ?_⟩
    intro s0 hs0a hs0b hs0fit
    by_contra hgt
    have hlt : (calcLoop m text W H (maxS + 1 - minS) minS (minS, text)).1 < s0 := by omega
    have hfl := he (by omega)
    have hft := hmono ((calcLoop m text W H (maxS + 1 - minS) minS (minS, text)).1 + 1) s0
      (by omega) (by omega) hs0b hs0fit
    rw [hft] at hfl
    exact absurd hfl (by decide)
  · intro hall
    have hminSf : fitsAt m text W H minS = false := hall minS (le_refl _) hrange
    have hnf : ¬ 13 * textHeight m minS (wrapAt m text W minS) ≤ 10 * H := by
      simpa [fitsAt] using hminSf
    unfold calculate_font_size
    have hfuel : maxS + 1 - minS = (maxS - minS) + 1 := by omega
    rw [hfuel, calcLoop]
    rw [if_neg (hcw minS (le_refl _) hrange), if_neg hnf]

/-- Witness for C1 at the constant font model: every size fits, so the
search returns `max_size` with its wrapped text. -/
theorem c1_witness :
    calculate_font_size constM ("x") 5 400 50 10 = (50, wrapAt constM ("x") 5 50) := by
  have hfits : ∀ s : Nat, fitsAt constM ("x") 5 400 s = true := by
    intro s
    simp [fitsAt, textHeight, constM]
  have h := c1_font_search constM ("x") 5 400 10 50 (by decide)
    (fun s _ _ => by simp [charWidthAt, constM])
    (fun s t _ _ _ _ => hfits s)
  obtain ⟨ha, hb, _, hd, he⟩ := h.1 ⟨50, by decide, le_refl 50, hfits 50⟩
  have hfst : (calculate_font_size constM ("x") 5 400 50 10).1 = 50 :=
    le_antisymm hb (he 50 (by decide) (le_refl 50) (hfits 50))
  have hsnd := hd
  rw [hfst] at hsnd
  exact Prod.ext hfst hsnd

/-- C1 counterexample: at the proportional font model, for text `"a b"` in
a 10 by 10 box no size in `[10, 50]` satisfies the margin, and the function
returns `min_size` with the ORIGINAL text `"a b"`, not the best-effort
min-size wrap `"a\nb"` the claim describes. -/
theorem c1_cex :
    (∀ s, s < 51 → 10 ≤ s → fitsAt linM ("a b") 10 10 s = false) ∧
    calculate_font_size linM ("a b") 10 10 50 10 = (10, ("a b")) ∧
    wrapAt linM ("a b") 10 10 = ("a\nb") ∧
    (("a b") : String) ≠ ("a\nb") := by
  exact ⟨by decide, by decide, by decide, by decide⟩

/-- C5: shrinking `box_height` while holding the measurement model, text,
`box_width` and the size range fixed never increases the returned
`font_size`. -/
theorem c5_height_monotone (m : TextMeasure) (text : String) (W : Int) (minS maxS : Nat)
    (H1 H2 : Int) (hH : H1 ≤ H2) :
    (calculate_font_size m text W H1 maxS minS).1 ≤
      (calculate_font_size m text W H2 maxS minS).1 := by
  unfold calculate_font_size
  exact calcLoop_mono m text W H1 H2 hH (maxS + 1 - minS) minS (minS, text) (le_refl minS)

/-- Witness for C5 at the proportional font model. -/
theorem c5_witness :
    (calculate_font_size linM ("a b") 10 10 50 10).1 ≤
      (calculate_font_size linM ("a b") 10 400 50 10).1 :=
  c5_height_monotone linM ("a b") 10 10 50 10 400 (by decide)

/-- C6 (amended): a zero-width proxy measurement at a size `s0` of the range
aborts the search there — the result equals the search truncated to
`max_size = s0 - 1` — and in particular when the zero occurs at the FIRST
candidate (`s0 = min_size`) the result is `min_size` with the original
unwrapped text.  (When earlier sizes fit, the recorded best size and
wrapped text are returned instead; see the counterexample.) -/
theorem c6_zero_width (m : TextMeasure) (text : String) (W H : Int) (minS maxS s0 : Nat)
    (h1 : minS ≤ s0) (h2 : s0 ≤ maxS) (hz : charWidthAt m s0 = 0) :
    calculate_font_size m text W H maxS minS =
      calculate_font_size m text W H (s0 - 1) minS ∧
    (s0 = minS → calculate_font_size m text W H maxS minS = (minS, text)) := by
  constructor
  · unfold calculate_font_size
    rcases Nat.eq_zero_or_pos s0 with h0 | h0
    · have hL := calcLoop_cut m text W H s0 hz 0 (maxS + 1 - minS) minS (minS, text)
        (by omega) (by omega)
      have hR := calcLoop_cut m text W H s0 hz 0 ((s0 - 1) + 1 - minS) minS (minS, text)
        (by omega) (by omega)
      rw [hL, hR]
    · have hL := calcLoop_cut m text W H s0 hz (s0 - minS) (maxS + 1 - minS) minS (minS, text)
        (by omega) (by omega)
      have hR := calcLoop_cut m text W H s0 hz (s0 - minS) ((s0 - 1) + 1 - minS) minS (minS, text)
        (by omega) (by omega)
      rw [hL, hR]
  · intro he
    unfold calculate_font_size
    have h := calcLoop_cut m text W H s0 hz 0 (maxS + 1 - minS) minS (minS, text)
      (by omega) (by omega)
    rw [h]
    rfl

/-- Witness for C6: an all-zero font model aborts at the first size and
returns the original text at `min_size`. -/
theorem c6_witness :
    calculate_font_size zeroM ("abc") 100 100 50 10 = (10, ("abc")) :=
  (c6_zero_width zeroM ("abc") 100 100 10 50 10 (le_refl 10) (by decide) (by decide)).2 rfl

/-- C6 counterexample: with a font that measures normally at size 10 but
reports a zero-width proxy at size 11, the search sees size 11 as a
candidate (size 10 fits, so the loop continues), aborts there, and returns
the recorded best `(10, "a\nb")` — the size is `min_size` but the text is
the size-10 WRAPPED text, not the original unwrapped `"a b"` the claim
requires. -/
theorem c6_cex :
    charWidthAt zeroAt11M 11 = 0 ∧ ((10 : Nat) ≤ 11 ∧ 11 ≤ 50) ∧
    fitsAt zeroAt11M ("a b") 10 100 10 = true ∧
    calculate_font_size zeroAt11M ("a b") 10 100 50 10 = (10, ("a\nb")) ∧
    (("a\nb") : String) ≠ ("a b") := by
  exact ⟨by decide, by decide, by decide, by decide, by decide⟩

/-! ### Helper lemmas: `break_long_word` -/

theorem brkScan_eq_findGreatest (m : TextMeasure) (size : Nat) (word : String) (maxW : Int) :
    ∀ n : Nat,
      brkScan m size word maxW n =
        if Nat.findGreatest
            (fun i => wordWidth m size (String.mk (word.data.take i ++ ['-'])) ≤ maxW) n = 0
        then none
        else some (Nat.findGreatest
            (fun i => wordWidth m size (String.mk (word.data.take i ++ ['-'])) ≤ maxW) n) := by
  intro n
  induction n with
  | zero => simp [brkScan]
  | succ n ih =>
    rw [brkScan]
    by_cases hp : wordWidth m size (String.mk (word.data.take (n + 1) ++ ['-'])) ≤ maxW
    · rw [if_pos hp, Nat.findGreatest_succ, if_pos hp]
      simp
    · rw [if_neg hp, ih, Nat.findGreatest_succ, if_neg hp]

/-! ### Claims C4, C10: the long-word pre-pass -/

/-- C4 (amended): in the long-word pre-pass a word is flagged when its width
exceeds 97.5 percent of `box_width`, but `break_long_word` first re-checks
the word against the FULL `box_width` and returns it unmodified whenever it
fits there (so words in the window between 97.5 and 100 percent are never
broken); a word wider than `box_width` is replaced by its longest front
part of length at most `length - 1` (the scan starts at `length - 1`, not
at the full length) whose hyphenated form fits, followed by hyphen, line
break, and the remainder; if no front part fits, the word is unmodified;
the spec's 20-character example at size 20 in a 60-pixel box produces
`"aa-"` then a line break then the 18 remaining characters. -/
theorem c4_break_long_word :
    (∀ (m : TextMeasure) (size : Nat) (word : String) (maxW : Int),
      975 * maxW < 1000 * wordWidth m size word →
      (wordWidth m size word ≤ maxW → break_long_word m size word maxW = word) ∧
      (maxW < wordWidth m size word →
        (Nat.findGreatest
            (fun i => wordWidth m size (String.mk (word.data.take i ++ ['-'])) ≤ maxW)
            (word.data.length - 1) = 0 →
          break_long_word m size word maxW = word) ∧
        (∀ k, Nat.findGreatest
            (fun i => wordWidth m size (String.mk (word.data.take i ++ ['-'])) ≤ maxW)
            (word.data.length - 1) = k → 0 < k →
          break_long_word m size word maxW =
            String.mk (word.data.take k) ++ String.mk ['-', '\n'] ++
              String.mk (word.data.drop k) ∧
          wordWidth m size (String.mk (word.data.take k ++ ['-'])) ≤ maxW ∧
          (∀ j, k < j → j ≤ word.data.length - 1 →
            ¬ wordWidth m size (String.mk (word.data.take j ++ ['-'])) ≤ maxW)))) ∧
    break_long_word linM 20 (String.mk (List.replicate 20 'a')) 60 =
      String.mk (['a', 'a', '-', '\n'] ++ List.replicate 18 'a') ∧
    containsHyphenBreak 22
      (break_long_word linM 20 (String.mk (List.replicate 20 'a')) 60).data = true := by
  refine ⟨?_, by decide, by decide⟩
  intro m size word maxW _
  constructor
  · intro hfit
    rw [break_long_word, if_pos hfit]
  · intro hwide
    have hnfit : ¬ wordWidth m size word ≤ maxW := by omega
    constructor
    · intro h0
      rw [break_long_word, if_neg hnfit, brkScan_eq_findGreatest, if_pos h0]
    · intro k hk h0
      rw [break_long_word, if_neg hnfit, brkScan_eq_findGreatest, hk, if_neg (by omega)]
      refine ⟨rfl, ?_, ?_⟩
      · exact Nat.findGreatest_of_ne_zero hk (by omega)
      · intro j hj1 hj2
        exact Nat.findGreatest_is_greatest (hk ▸ hj1) hj2

/-- Witness for C4: a 40-character word at size 10 in a 410-pixel box is
flagged and wider than the box; the scan breaks it after 40 characters
would not fit, so after the longest fitting front part. -/
theorem c4_witness :
    break_long_word linM 10 (String.mk (List.replicate 40 'a')) 100 =
      String.mk (List.replicate 9 'a' ++ ['-', '\n'] ++ List.replicate 31 'a') := by
  have h := (c4_break_long_word.1 linM 10 (String.mk (List.replicate 40 'a')) 100
    (by decide)).2 (by decide)
  have h2 := h.2 9 (by decide) (by decide)
  rw [h2.1]
  decide

/-- C4 counterexample: at size 10 a 40-character word in a 410-pixel box has
width 400, which exceeds 97.5 percent of 410 (= 399.75), so the claim says
it is replaced (its longest prefix is the FULL word, whose hyphenated form
measures 410 <= 410); but `break_long_word` re-checks `400 <= 410` and
returns the word unmodified, and the pre-pass leaves the text unchanged. -/
theorem c4_cex :
    975 * (410 : Int) < 1000 * wordWidth linM 10 (String.mk (List.replicate 40 'a')) ∧
    wordWidth linM 10 (String.mk (List.replicate 40 'a')) ≤ 410 ∧
    wordWidth linM 10 (String.mk (List.replicate 40 'a' ++ ['-'])) ≤ 410 ∧
    break_long_word linM 10 (String.mk (List.replicate 40 'a')) 410 =
      String.mk (List.replicate 40 'a') ∧
    prePass linM 10 (String.mk (List.replicate 40 'a')) 410 =
      String.mk (List.replicate 40 'a') ∧
    String.mk (List.replicate 40 'a' ++ ['-', '\n']) ≠ String.mk (List.replicate 40 'a') := by
  exact ⟨by decide, by decide, by decide, by decide, by decide, by decide⟩

/-- C10: when a flagged word is rewritten, `processed_text.replace(word,
broken_word)` replaces EVERY occurrence of the word's character sequence,
including one embedded inside a longer (unflagged) word: with a model where
only the bare ten-letter word is oversized, both the standalone occurrence
and the occurrence inside `"xaaaaaaaaaay"` are hyphen-broken. -/
theorem c10_substring_replacement :
    (dedupFirst (pySplit ("aaaaaaaaaa xaaaaaaaaaay"))).filter
        (fun w => 975 * (50 : Int) < 1000 * wordWidth subWordM 10 w) =
      [("aaaaaaaaaa")] ∧
    ¬ 975 * (50 : Int) < 1000 * wordWidth subWordM 10 ("xaaaaaaaaaay") ∧
    break_long_word subWordM 10 ("aaaaaaaaaa") 50 = ("aaaaaaaaa-\na") ∧
    prePass subWordM 10 ("aaaaaaaaaa xaaaaaaaaaay") 50 =
      ("aaaaaaaaa-\na xaaaaaaaaa-\nay") := by
  exact ⟨by decide, by decide, by decide, by decide⟩
